import Mathlib

/-!
Shallow embedding of the document version-history subsystem of
`src/src-tauri/src/versions.rs` (lilia-desktop), together with models of the
external collaborators it calls into: the SHA-256 digest (`sha2` crate), the
gzip blob codec (`flate2` crate) and the filesystem paths (`std::path`).
Machine integers are modelled as `Nat` with explicit reduction `% 2^w` where
the Rust code computes in a fixed width.
-/

namespace Lilia

/-! ### 32-bit word arithmetic (the `sha2` crate computes in `u32`) -/

def w32 : Nat := 2 ^ 32

def add32 (a b : Nat) : Nat := (a + b) % w32

def rotr32 (n x : Nat) : Nat := ((x >>> n) ||| (x <<< (32 - n))) % w32

def not32 (x : Nat) : Nat := x ^^^ (w32 - 1)

/-! ### SHA-256 (model of the `sha2::Sha256` digest, FIPS 180-4)

`versions.rs` calls `Sha256::new/update/finalize` from the external `sha2`
crate; the digest itself is modelled here from the standard it implements.
Messages and digests are lists of bytes (`Nat` values below 256). -/

def shaK : List Nat := [
  1116352408, 1899447441, 3049323471, 3921009573,
  961987163, 1508970993, 2453635748, 2870763221,
  3624381080, 310598401, 607225278, 1426881987,
  1925078388, 2162078206, 2614888103, 3248222580,
  3835390401, 4022224774, 264347078, 604807628,
  770255983, 1249150122, 1555081692, 1996064986,
  2554220882, 2821834349, 2952996808, 3210313671,
  3336571891, 3584528711, 113926993, 338241895,
  666307205, 773529912, 1294757372, 1396182291,
  1695183700, 1986661051, 2177026350, 2456956037,
  2730485921, 2820302411, 3259730800, 3345764771,
  3516065817, 3600352804, 4094571909, 275423344,
  430227734, 506948616, 659060556, 883997877,
  958139571, 1322822218, 1537002063, 1747873779,
  1955562222, 2024104815, 2227730452, 2361852424,
  2428436474, 2756734187, 3204031479, 3329325298]

def shaH0 : List Nat := [
  1779033703, 3144134277, 1013904242, 2773480762,
  1359893119, 2600822924, 528734635, 1541459225]

/-- SHA-256 padding: append `0x80`, zero bytes to 56 mod 64, then the
bit length as 8 big-endian bytes. -/
def shaPad (msg : List Nat) : List Nat :=
  let zeros := (56 + 64 - (msg.length + 1) % 64) % 64
  msg ++ 0x80 :: List.replicate zeros 0 ++
    (List.range 8).map (fun i => ((msg.length * 8) >>> ((7 - i) * 8)) % 256)

/-- Group bytes into big-endian 32-bit words. -/
def bytesToWords : List Nat → List Nat
  | b0 :: b1 :: b2 :: b3 :: rest =>
      (((b0 * 256 + b1) * 256 + b2) * 256 + b3) :: bytesToWords rest
  | _ => []

def smallSigma0 (x : Nat) : Nat := rotr32 7 x ^^^ rotr32 18 x ^^^ (x >>> 3)

def smallSigma1 (x : Nat) : Nat := rotr32 17 x ^^^ rotr32 19 x ^^^ (x >>> 10)

def bigSigma0 (x : Nat) : Nat := rotr32 2 x ^^^ rotr32 13 x ^^^ rotr32 22 x

def bigSigma1 (x : Nat) : Nat := rotr32 6 x ^^^ rotr32 11 x ^^^ rotr32 25 x

/-- Extend the 16 block words to the 64-word message schedule. -/
def shaSchedule (ws : List Nat) : List Nat :=
  (List.range 48).foldl (fun acc _ =>
    let n := acc.length
    acc ++ [(smallSigma1 (acc.getD (n - 2) 0) + acc.getD (n - 7) 0 +
             smallSigma0 (acc.getD (n - 15) 0) + acc.getD (n - 16) 0) % w32]) ws

/-- One compression round; the state is the eight working words `a..h`. -/
def shaRound (st : List Nat) (kw : Nat × Nat) : List Nat :=
  match st with
  | [a, b, c, d, e, f, g, h] =>
      let t1 := (h + bigSigma1 e + ((e &&& f) ^^^ (not32 e &&& g)) +
                 kw.1 + kw.2) % w32
      let t2 := (bigSigma0 a + ((a &&& b) ^^^ (a &&& c) ^^^ (b &&& c))) % w32
      [(t1 + t2) % w32, a, b, c, (d + t1) % w32, e, f, g]
  | other => other

/-- Process one 64-byte block, updating the eight-word hash state. -/
def shaBlock (hs : List Nat) (block : List Nat) : List Nat :=
  let ws := shaSchedule (bytesToWords block)
  let st := (shaK.zip ws).foldl shaRound hs
  (hs.zip st).map (fun p => (p.1 + p.2) % w32)

def shaBlocksFuel : Nat → List Nat → List Nat → List Nat
  | 0, hs, _ => hs
  | fuel + 1, hs, bs =>
      if bs = [] then hs
      else shaBlocksFuel fuel (shaBlock hs (bs.take 64)) (bs.drop 64)

def shaBlocks (hs : List Nat) (bs : List Nat) : List Nat :=
  shaBlocksFuel bs.length hs bs

def wordToBytes (w : Nat) : List Nat :=
  [(w >>> 24) % 256, (w >>> 16) % 256, (w >>> 8) % 256, w % 256]

/-- The SHA-256 digest of a byte sequence: 32 bytes. -/
def sha256 (msg : List Nat) : List Nat :=
  (shaBlocks shaH0 (shaPad msg)).flatMap wordToBytes

/-! ### Hex encoding (model of `hex::encode`, lowercase) -/

def hexDigit (n : Nat) : Char :=
  if n < 10 then Char.ofNat (48 + n) else Char.ofNat (87 + n)

def hexEncode (bs : List Nat) : String :=
  String.mk (bs.flatMap (fun b => [hexDigit (b / 16), hexDigit (b % 16)]))

/-! ### UTF-8 (Rust `String` content is UTF-8; `read_to_string` validates it) -/

def utf8EncodeChar (c : Char) : List Nat :=
  let n := c.toNat
  if n < 0x80 then [n]
  else if n < 0x800 then [0xC0 + n / 64, 0x80 + n % 64]
  else if n < 0x10000 then
    [0xE0 + n / 4096, 0x80 + (n / 64) % 64, 0x80 + n % 64]
  else
    [0xF0 + n / 262144, 0x80 + (n / 4096) % 64, 0x80 + (n / 64) % 64,
     0x80 + n % 64]

/-- The UTF-8 bytes of a string (model of `str::as_bytes`). -/
def strBytes (s : String) : List Nat := s.data.flatMap utf8EncodeChar

/-- Decode one UTF-8 scalar from the front of a byte sequence (model of the
validation done by `Read::read_to_string`): rejects stray continuation
bytes, overlong forms, surrogates and out-of-range scalars. -/
def utf8DecodeOne : List Nat → Option (Char × List Nat)
  | [] => none
  | b :: bs =>
    if b < 0x80 then some (Char.ofNat b, bs)
    else if b < 0xE0 then
      match bs with
      | b1 :: rest =>
        if 0xC2 ≤ b ∧ 0x80 ≤ b1 ∧ b1 < 0xC0 then
          some (Char.ofNat ((b - 0xC0) * 64 + (b1 - 0x80)), rest)
        else none
      | [] => none
    else if b < 0xF0 then
      match bs with
      | b1 :: b2 :: rest =>
        let n := (b - 0xE0) * 4096 + (b1 - 0x80) * 64 + (b2 - 0x80)
        if (0x80 ≤ b1 ∧ b1 < 0xC0) ∧ (0x80 ≤ b2 ∧ b2 < 0xC0) ∧
           0x800 ≤ n ∧ (n < 0xD800 ∨ 0xE000 ≤ n) then
          some (Char.ofNat n, rest)
        else none
      | _ => none
    else if b < 0xF8 then
      match bs with
      | b1 :: b2 :: b3 :: rest =>
        let n := (b - 0xF0) * 262144 + (b1 - 0x80) * 4096 +
                 (b2 - 0x80) * 64 + (b3 - 0x80)
        if (0x80 ≤ b1 ∧ b1 < 0xC0) ∧ (0x80 ≤ b2 ∧ b2 < 0xC0) ∧
           (0x80 ≤ b3 ∧ b3 < 0xC0) ∧ 0x10000 ≤ n ∧ n < 0x110000 then
          some (Char.ofNat n, rest)
        else none
      | _ => none
    else none

def utf8DecodeFuel : Nat → List Nat → Option (List Char)
  | _, [] => some []
  | 0, _ :: _ => none
  | fuel + 1, b :: bs =>
    match utf8DecodeOne (b :: bs) with
    | some (c, rest) => (utf8DecodeFuel fuel rest).map (c :: ·)
    | none => none

/-- UTF-8 decoding of a whole byte sequence. -/
def utf8Decode (bs : List Nat) : Option (List Char) :=
  utf8DecodeFuel bs.length bs

/-- Decode UTF-8 bytes into a string, when valid. -/
def utf8DecodeString (bs : List Nat) : Option String :=
  (utf8Decode bs).map String.mk

/-! ### Gzip blob codec

Modelled from the spec: `versions.rs` compresses blobs through the external
`flate2` crate (`GzEncoder`/`GzDecoder`, "gzip-compressed UTF-8 document
content", "general-purpose deflate-family compressor"), whose DEFLATE
implementation is not part of this repository.  The model is an honest
executable gzip member using stored (uncompressed) DEFLATE blocks: a 10-byte
gzip header, stored blocks of at most 0xFFFF bytes each carrying a
length/complement pair, and the CRC-32/length footer; the decoder validates
the header, the block structure, the CRC and the length, and fails on
malformed input, as `GzDecoder` does. -/

def crc32Step (c : Nat) : Nat :=
  if c % 2 = 1 then 0xEDB88320 ^^^ (c / 2) else c / 2

def crc32Byte (c b : Nat) : Nat :=
  crc32Step (crc32Step (crc32Step (crc32Step
    (crc32Step (crc32Step (crc32Step (crc32Step (c ^^^ b % 256))))))))

def crc32 (bs : List Nat) : Nat :=
  0xFFFFFFFF ^^^ bs.foldl crc32Byte 0xFFFFFFFF

/-- Two little-endian bytes. -/
def le2 (n : Nat) : List Nat := [n % 256, (n / 256) % 256]

/-- Four little-endian bytes. -/
def le4 (n : Nat) : List Nat :=
  [n % 256, (n / 256) % 256, (n / 65536) % 256, (n / 16777216) % 256]

/-- The value of four little-endian bytes. -/
def leVal4 (a b c d : Nat) : Nat := a + 256 * (b + 256 * (c + 256 * d))

def storedBlocksFuel : Nat → List Nat → List Nat
  | 0, _ => []
  | fuel + 1, bs =>
    if bs.length ≤ 0xFFFF then
      1 :: (le2 bs.length ++ le2 (0xFFFF - bs.length) ++ bs)
    else
      0 :: (le2 0xFFFF ++ le2 0 ++ bs.take 0xFFFF ++
            storedBlocksFuel fuel (bs.drop 0xFFFF))

/-- The DEFLATE stream: stored blocks, the last one marked final. -/
def storedBlocks (bs : List Nat) : List Nat := storedBlocksFuel (bs.length + 1) bs

def gzipHeader : List Nat := [0x1F, 0x8B, 8, 0, 0, 0, 0, 0, 0, 255]

/-- Compress bytes into a gzip member (model of `GzEncoder::write_all/finish`). -/
def gzipCompress (bs : List Nat) : List Nat :=
  gzipHeader ++ storedBlocks bs ++ le4 (crc32 bs) ++ le4 (bs.length % 2 ^ 32)

/-- Parse a sequence of stored blocks; returns the data and the remaining
bytes after the final block. -/
def parseStoredFuel : Nat → List Nat → Option (List Nat × List Nat)
  | 0, _ => none
  | fuel + 1, bf :: l0 :: l1 :: n0 :: n1 :: rest =>
    let len := l0 + 256 * l1
    if l0 + 256 * l1 + (n0 + 256 * n1) = 0xFFFF ∧ len ≤ rest.length then
      if bf = 1 then some (rest.take len, rest.drop len)
      else if bf = 0 then
        match parseStoredFuel fuel (rest.drop len) with
        | some (d, r) => some (rest.take len ++ d, r)
        | none => none
      else none
    else none
  | _, _ => none

/-- Decompress a gzip member (model of `GzDecoder`): validates the magic
bytes, the method, the flags, the block structure, the CRC and the length;
`none` models an `io::Error` from the decoder. -/
def gzipDecompress (bs : List Nat) : Option (List Nat) :=
  match bs with
  | 0x1F :: 0x8B :: 8 :: 0 :: _ :: _ :: _ :: _ :: _ :: _ :: rest =>
    match parseStoredFuel (rest.length + 1) rest with
    | some (dat, c0 :: c1 :: c2 :: c3 :: i0 :: i1 :: i2 :: i3 :: _) =>
      if crc32 dat = leVal4 c0 c1 c2 c3 ∧ dat.length % 2 ^ 32 = leVal4 i0 i1 i2 i3 then
        some dat
      else none
    | _ => none
  | _ => none

/-- Read a blob's bytes back into a string: decompress, then UTF-8 decode
(model of `GzDecoder::read_to_string`). -/
def blobDecode (bs : List Nat) : Option String :=
  (gzipDecompress bs).bind utf8DecodeString

/-! ### Data model (`versions.rs` lines 12–26) -/

structure VersionEntry where
  id : String
  document_path : String
  timestamp : String
  comment : Option String
  word_count : Nat
  file_size_bytes : Nat
  content_hash : String
deriving DecidableEq, Repr

structure VersionManifest where
  versions : List VersionEntry
deriving DecidableEq, Repr

/-- `document_hash` (lines 29–34): SHA-256 of the path's UTF-8 bytes,
truncated to the first 8 bytes, lowercase hex. -/
def document_hash (path : String) : String :=
  hexEncode ((sha256 (strBytes path)).take 8)

/-- `content_hash` (lines 69–73): SHA-256 of the content's UTF-8 bytes,
truncated to the first 8 bytes, lowercase hex. -/
def content_hash (content : String) : String :=
  hexEncode ((sha256 (strBytes content)).take 8)

/-- `count_words` (lines 64–66): `content.split_whitespace().count()`. -/
def countWordsAux : Bool → List Char → Nat
  | _, [] => 0
  | inWord, c :: cs =>
    if c.isWhitespace then countWordsAux false cs
    else (if inWord then 0 else 1) + countWordsAux true cs

def count_words (content : String) : Nat := countWordsAux false content.data

/-! ### Storage state of one document's versions directory

The Rust code keeps all durable state in the per-document directory
`<app_data_dir>/versions/<document_hash>`: the `manifest.json` file and one
`<id>.lml.gz` blob file per version.  `ManifestFile` models the possible
states of `manifest.json` as distinguished by `read_manifest` (lines 43–53):
absent (`exists()` false), unreadable (`read_to_string` errs), corrupt
(`serde_json::from_str` errs), or stored.  Blobs are an association list
from version id to the blob file's bytes. -/

inductive ManifestFile
  | absent
  | unreadable
  | corrupt
  | stored (m : VersionManifest)
deriving DecidableEq, Repr

structure DocDir where
  manifest : ManifestFile
  blobs : List (String × List Nat)
deriving DecidableEq, Repr

/-- `read_manifest` (lines 43–53): any failure degrades to the empty
manifest. -/
def read_manifest : ManifestFile → VersionManifest
  | .absent => ⟨[]⟩
  | .unreadable => ⟨[]⟩
  | .corrupt => ⟨[]⟩
  | .stored m => m

/-- `fs::File::create` then write: overwrites any blob already at that id. -/
def blobWrite (id : String) (bytes : List Nat) (bs : List (String × List Nat)) :
    List (String × List Nat) :=
  (id, bytes) :: bs.filter (fun p => p.1 ≠ id)

/-- `fs::remove_file` on a blob path. -/
def blobRemove (id : String) (bs : List (String × List Nat)) :
    List (String × List Nat) :=
  bs.filter (fun p => p.1 ≠ id)

/-- The bytes of the blob file at an id, when the file exists. -/
def blobGet (id : String) (bs : List (String × List Nat)) : Option (List Nat) :=
  (bs.find? (fun p => p.1 = id)).map (fun p => p.2)

/-! ### The four operations (`versions.rs` lines 75–208)

Nondeterministic inputs of the Rust code are explicit parameters: `lockOk`
is whether `state.app_data_dir.lock()` succeeds, `freshId` the value of
`uuid::Uuid::new_v4().to_string()`, `ts` the value of
`chrono::Utc::now().to_rfc3339()`.  The model covers the fault states the
claims discriminate on (manifest corruption, absent blobs, undecodable
blobs, lock poisoning); filesystem writes succeed. -/

/-- The write path of `create_version` (lines 99–140): compress a new blob,
build the entry, insert at the front, evict beyond 100 (`split_off(100)`,
best-effort blob removal — a no-op fold when nothing exceeds 100), persist
the manifest. -/
def create_versionWrite (freshId ts document_path content : String)
    (comment : Option String) (d : DocDir) (manifest : VersionManifest)
    (hash : String) : Except String (VersionEntry × DocDir) :=
  let bytes := gzipCompress (strBytes content)
  let blobs1 := blobWrite freshId bytes d.blobs
  let entry : VersionEntry :=
    { id := freshId
      document_path := document_path
      timestamp := ts
      comment := comment
      word_count := count_words content
      file_size_bytes := bytes.length
      content_hash := hash }
  let versions1 := entry :: manifest.versions
  let kept := versions1.take 100
  let removed := versions1.drop 100
  let blobs2 := removed.foldl (fun bs v => blobRemove v.id bs) blobs1
  .ok (entry, ⟨.stored ⟨kept⟩, blobs2⟩)

/-- `create_version` (lines 75–141). -/
def create_version (lockOk : Bool) (freshId ts : String)
    (document_path content : String) (comment : Option String) (d : DocDir) :
    Except String (VersionEntry × DocDir) :=
  if ¬ lockOk then .error "Lock error"
  else
    let manifest := read_manifest d.manifest
    let hash := content_hash content
    match manifest.versions.head? with
    | some last =>
      if last.content_hash = hash then .ok (last, d)
      else create_versionWrite freshId ts document_path content comment d manifest hash
    | none => create_versionWrite freshId ts document_path content comment d manifest hash

/-- `list_versions` (lines 143–155). -/
def list_versions (lockOk : Bool) (document_path : String) (d : DocDir) :
    List VersionEntry :=
  if ¬ lockOk then []
  else (read_manifest d.manifest).versions

/-- `restore_version` (lines 157–182). -/
def restore_version (lockOk : Bool) (version_id document_path : String)
    (d : DocDir) : Except String String :=
  if ¬ lockOk then .error "Lock error"
  else
    match blobGet version_id d.blobs with
    | none => .error ("Version file not found: " ++ version_id)
    | some bytes =>
      match blobDecode bytes with
      | some content => .ok content
      | none => .error "Decompress error"

/-- `delete_version` (lines 184–208). -/
def delete_version (lockOk : Bool) (version_id document_path : String)
    (d : DocDir) : Except String DocDir :=
  if ¬ lockOk then .error "Lock error"
  else
    let blobs1 :=
      match blobGet version_id d.blobs with
      | some _ => blobRemove version_id d.blobs
      | none => d.blobs
    let manifest := read_manifest d.manifest
    let kept := manifest.versions.filter (fun v => v.id ≠ version_id)
    .ok ⟨.stored ⟨kept⟩, blobs1⟩

/-! ### Filesystem path model (`std::path::PathBuf`)

A path is its list of components.  `PathBuf::join` with a relative string
appends that string's `/`-separated components verbatim (no normalisation);
`..` components take effect when the filesystem resolves the path, modelled
by `resolvePath`. -/

def splitSlash : List Char → List (List Char)
  | [] => [[]]
  | c :: cs =>
    let r := splitSlash cs
    if c = '/' then [] :: r
    else
      match r with
      | [] => [[c]]
      | h :: t => (c :: h) :: t

/-- Model of `PathBuf::join` with a (relative) string argument. -/
def pathJoin (p : List String) (s : String) : List String :=
  p ++ (splitSlash s.data).map String.mk

/-- `versions_dir` (lines 36–40): `app_data_dir.join("versions").join(hash)`. -/
def versions_dir (app_data_dir : List String) (document_path : String) :
    List String :=
  pathJoin (pathJoin app_data_dir "versions") (document_hash document_path)

/-- The path of a version's blob file: `dir.join(format!("{}.lml.gz", id))`. -/
def gzPath (dir : List String) (version_id : String) : List String :=
  pathJoin dir (version_id ++ ".lml.gz")

/-- The path of the manifest file: `dir.join("manifest.json")`. -/
def manifestPath (dir : List String) : List String :=
  pathJoin dir "manifest.json"

/-- Resolve one component against an absolute stack of components. -/
def resolveComp (acc : List String) (c : String) : List String :=
  if c = ".." then acc.dropLast
  else if c = "." ∨ c = "" then acc
  else acc ++ [c]

/-- Filesystem resolution of a component list (`.` and empty components are
skipped, `..` pops). -/
def resolvePath (p : List String) : List String := p.foldl resolveComp []

/-- Whether the file at `p` lies inside the directory `dir`, after
resolution. -/
def underDir (dir p : List String) : Bool :=
  (resolvePath dir).isPrefixOf (resolvePath p)

/-- The file paths `restore_version` touches (line 169: the blob path). -/
def restoreTouches (root : List String) (document_path version_id : String) :
    List (List String) :=
  [gzPath (versions_dir root document_path) version_id]

/-- The file paths `delete_version` touches (lines 197, 203–205: the blob
path and the manifest). -/
def deleteTouches (root : List String) (document_path version_id : String) :
    List (List String) :=
  [gzPath (versions_dir root document_path) version_id,
   manifestPath (versions_dir root document_path)]

/-- The file paths `list_versions` touches (line 153: the manifest). -/
def listTouches (root : List String) (document_path : String) :
    List (List String) :=
  [manifestPath (versions_dir root document_path)]

/-- The file paths `create_version` touches (lines 87–138: the directory
itself, the manifest, the fresh blob, and the evicted entries' blobs). -/
def createTouches (root : List String) (document_path freshId : String)
    (evictedIds : List String) : List (List String) :=
  versions_dir root document_path ::
  manifestPath (versions_dir root document_path) ::
  gzPath (versions_dir root document_path) freshId ::
  evictedIds.map (gzPath (versions_dir root document_path))

/-! ### Derived forms used by the theorems -/

/-- The `VersionEntry` built by the write path of `create_version`
(lines 116–124). -/
def newEntry (freshId ts document_path content : String)
    (comment : Option String) : VersionEntry :=
  { id := freshId
    document_path := document_path
    timestamp := ts
    comment := comment
    word_count := count_words content
    file_size_bytes := (gzipCompress (strBytes content)).length
    content_hash := content_hash content }

/-- One scripted `create_version` call: the fresh id and timestamp the call
would draw, the content and the comment. -/
structure CreateOp where
  id : String
  ts : String
  content : String
  comment : Option String
deriving DecidableEq, Repr

def createStep (document_path : String) (d : DocDir) (op : CreateOp) : DocDir :=
  match create_version true op.id op.ts document_path op.content op.comment d with
  | .ok (_, d') => d'
  | .error _ => d

/-- Run a sequence of `create_version` calls against one document. -/
def createMany (document_path : String) (ops : List CreateOp) (d : DocDir) :
    DocDir :=
  ops.foldl (createStep document_path) d

/-- The big-endian value of a byte list. -/
def byteListVal (bs : List Nat) : Nat := bs.foldl (fun a b => a * 256 + b) 0

/-- The `k` big-endian base-256 digits of `n`. -/
def natToBytesBE : Nat → Nat → List Nat
  | 0, _ => []
  | k + 1, n => natToBytesBE k (n / 256) ++ [n % 256]

/-- The truncated document fingerprint as a number below `2^64`. -/
def hashVal (path : String) : Nat :=
  byteListVal ((sha256 (strBytes path)).take 8)

/-- 101 scripted creates with alternating contents (all consecutive contents
distinct) and pairwise-distinct ids. -/
def c2ops : List CreateOp :=
  (List.range 101).map
    (fun i => ⟨toString i, "t", if i % 2 = 0 then "a" else "b", none⟩)

/-! ### UTF-8 round trip -/

theorem utf8DecodeOne_encodeChar (c : Char) (bs : List Nat) :
    utf8DecodeOne (utf8EncodeChar c ++ bs) = some (c, bs) := by
  have hv : c.toNat < 0xD800 ∨ (0xDFFF < c.toNat ∧ c.toNat < 0x110000) := c.valid
  have hofnat : Char.ofNat c.toNat = c := Char.ofNat_toNat c
  rcases Nat.lt_or_ge c.toNat 0x80 with h1 | h1
  · simp only [utf8EncodeChar, if_pos h1, List.cons_append, List.nil_append,
      utf8DecodeOne]
    rw [hofnat]
  · rcases Nat.lt_or_ge c.toNat 0x800 with h2 | h2
    · simp only [utf8EncodeChar, if_neg (by omega : ¬ c.toNat < 0x80),
        if_pos h2, List.cons_append, List.nil_append, utf8DecodeOne,
        if_neg (by omega : ¬ 0xC0 + c.toNat / 64 < 0x80),
        if_pos (by omega : 0xC0 + c.toNat / 64 < 0xE0)]
      rw [if_pos (by omega)]
      have harg : (0xC0 + c.toNat / 64 - 0xC0) * 64 +
          (0x80 + c.toNat % 64 - 0x80) = c.toNat := by omega
      rw [harg, hofnat]
    · rcases Nat.lt_or_ge c.toNat 0x10000 with h3 | h3
      · simp only [utf8EncodeChar, if_neg (by omega : ¬ c.toNat < 0x80),
          if_neg (by omega : ¬ c.toNat < 0x800), if_pos h3,
          List.cons_append, List.nil_append, utf8DecodeOne,
          if_neg (by omega : ¬ 0xE0 + c.toNat / 4096 < 0x80),
          if_neg (by omega : ¬ 0xE0 + c.toNat / 4096 < 0xE0),
          if_pos (by omega : 0xE0 + c.toNat / 4096 < 0xF0)]
        rw [if_pos (by omega)]
        have harg : (0xE0 + c.toNat / 4096 - 0xE0) * 4096 +
            (0x80 + c.toNat / 64 % 64 - 0x80) * 64 +
            (0x80 + c.toNat % 64 - 0x80) = c.toNat := by omega
        rw [harg, hofnat]
      · have hup : c.toNat < 0x110000 := by omega
        simp only [utf8EncodeChar, if_neg (by omega : ¬ c.toNat < 0x80),
          if_neg (by omega : ¬ c.toNat < 0x800),
          if_neg (by omega : ¬ c.toNat < 0x10000),
          List.cons_append, List.nil_append, utf8DecodeOne,
          if_neg (by omega : ¬ 0xF0 + c.toNat / 262144 < 0x80),
          if_neg (by omega : ¬ 0xF0 + c.toNat / 262144 < 0xE0),
          if_neg (by omega : ¬ 0xF0 + c.toNat / 262144 < 0xF0),
          if_pos (by omega : 0xF0 + c.toNat / 262144 < 0xF8)]
        rw [if_pos (by omega)]
        have harg : (0xF0 + c.toNat / 262144 - 0xF0) * 262144 +
            (0x80 + c.toNat / 4096 % 64 - 0x80) * 4096 +
            (0x80 + c.toNat / 64 % 64 - 0x80) * 64 +
            (0x80 + c.toNat % 64 - 0x80) = c.toNat := by omega
        rw [harg, hofnat]

theorem utf8EncodeChar_ne_nil (c : Char) : utf8EncodeChar c ≠ [] := by
  simp only [utf8EncodeChar]
  split_ifs <;> simp

theorem utf8DecodeFuel_flatMap (cs : List Char) :
    ∀ fuel, (cs.flatMap utf8EncodeChar).length ≤ fuel →
      utf8DecodeFuel fuel (cs.flatMap utf8EncodeChar) = some cs := by
  induction cs with
  | nil => intro fuel _; cases fuel <;> rfl
  | cons c cs ih =>
    intro fuel h
    rw [List.flatMap_cons] at h ⊢
    obtain ⟨b, bt, hb⟩ :
        ∃ b bt, utf8EncodeChar c ++ cs.flatMap utf8EncodeChar = b :: bt := by
      cases henc : utf8EncodeChar c with
      | nil => exact absurd henc (utf8EncodeChar_ne_nil c)
      | cons x xs => exact ⟨x, xs ++ cs.flatMap utf8EncodeChar, by simp [henc]⟩
    have hlen1 : 1 ≤ (utf8EncodeChar c).length := by
      cases henc : utf8EncodeChar c with
      | nil => exact absurd henc (utf8EncodeChar_ne_nil c)
      | cons x xs => simp
    cases fuel with
    | zero =>
      exfalso
      rw [hb] at h
      simp at h
    | succ g =>
      rw [hb]
      simp only [utf8DecodeFuel]
      rw [← hb, utf8DecodeOne_encodeChar]
      have hrest : (cs.flatMap utf8EncodeChar).length ≤ g := by
        rw [List.length_append] at h
        omega
      simp [ih g hrest]

theorem utf8Decode_flatMap (cs : List Char) :
    utf8Decode (cs.flatMap utf8EncodeChar) = some cs :=
  utf8DecodeFuel_flatMap cs _ le_rfl

theorem utf8DecodeString_strBytes (s : String) :
    utf8DecodeString (strBytes s) = some s := by
  rcases s with ⟨data⟩
  simp [utf8DecodeString, strBytes, utf8Decode_flatMap]

/-! ### Gzip round trip -/

theorem crc32Step_lt (c : Nat) (h : c < 2 ^ 32) : crc32Step c < 2 ^ 32 := by
  unfold crc32Step
  split_ifs
  · exact Nat.xor_lt_two_pow (by norm_num) (by omega)
  · omega

theorem crc32Byte_lt (c b : Nat) (h : c < 2 ^ 32) : crc32Byte c b < 2 ^ 32 := by
  have hx : c ^^^ b % 256 < 2 ^ 32 :=
    Nat.xor_lt_two_pow h (by have := Nat.mod_lt b (y := 256) (by omega); omega)
  exact crc32Step_lt _ (crc32Step_lt _ (crc32Step_lt _ (crc32Step_lt _
    (crc32Step_lt _ (crc32Step_lt _ (crc32Step_lt _ (crc32Step_lt _ hx)))))))

theorem crc32_lt (bs : List Nat) : crc32 bs < 2 ^ 32 := by
  have hfold : ∀ (l : List Nat) (c : Nat), c < 2 ^ 32 →
      l.foldl crc32Byte c < 2 ^ 32 := by
    intro l
    induction l with
    | nil => intro c h; exact h
    | cons b t ih => intro c h; exact ih _ (crc32Byte_lt c b h)
  exact Nat.xor_lt_two_pow (by norm_num) (hfold bs 0xFFFFFFFF (by norm_num))

theorem leVal4_le4 (n : Nat) (h : n < 2 ^ 32) :
    leVal4 (n % 256) (n / 256 % 256) (n / 65536 % 256) (n / 16777216 % 256) = n := by
  unfold leVal4
  omega

theorem storedBlocksFuel_length (fe : Nat) :
    ∀ bs : List Nat, bs.length < fe → bs.length ≤ (storedBlocksFuel fe bs).length := by
  induction fe with
  | zero => intro bs h; omega
  | succ fe ih =>
    intro bs h
    rw [storedBlocksFuel]
    split_ifs with hle
    · simp only [le2, List.length_cons, List.length_append]
      omega
    · have hdrop : (bs.drop 0xFFFF).length < fe := by
        simp only [List.length_drop]
        omega
      have := ih (bs.drop 0xFFFF) hdrop
      simp only [List.length_cons, List.length_append, le2, List.length_take,
        List.length_drop] at *
      omega

theorem parseStored_storedBlocks (fe : Nat) :
    ∀ (fp : Nat) (bs tail : List Nat), bs.length < fe → bs.length < fp →
      parseStoredFuel fp (storedBlocksFuel fe bs ++ tail) = some (bs, tail) := by
  induction fe with
  | zero => intro fp bs tail h _; omega
  | succ fe ih =>
    intro fp bs tail hfe hfp
    cases fp with
    | zero => omega
    | succ g =>
      by_cases hle : bs.length ≤ 0xFFFF
      · rw [storedBlocksFuel, if_pos hle]
        simp only [le2, List.cons_append, List.append_eq, List.nil_append,
          List.append_assoc, parseStoredFuel]
        have hsz : bs.length % 256 + 256 * (bs.length / 256 % 256) =
            bs.length := by omega
        rw [if_pos ?hc1]
        case hc1 =>
          constructor
          · omega
          · simp only [List.length_append]
            omega
        rw [if_pos trivial, hsz, List.take_left, List.drop_left]
      · rw [storedBlocksFuel, if_neg hle]
        simp only [le2, List.cons_append, List.append_eq, List.nil_append,
          List.append_assoc, parseStoredFuel]
        have htk : (bs.take 0xFFFF).length = 0xFFFF := by
          simp only [List.length_take, Nat.min_def]
          split_ifs <;> omega
        rw [if_pos ?hc2]
        case hc2 =>
          refine ⟨trivial, ?_⟩
          simp only [List.length_append, htk]
          omega
        rw [if_neg (by norm_num), if_pos trivial]
        rw [show (0xFFFF : Nat) % 256 + 256 * (0xFFFF / 256 % 256) = 0xFFFF
              from by norm_num]
        rw [List.drop_left' htk]
        have hd1 : (bs.drop 0xFFFF).length < fe := by
          simp only [List.length_drop]; omega
        have hd2 : (bs.drop 0xFFFF).length < g := by
          simp only [List.length_drop]; omega
        rw [ih g (bs.drop 0xFFFF) tail hd1 hd2]
        show some (List.take 0xFFFF (bs.take 0xFFFF ++
            (storedBlocksFuel fe (bs.drop 0xFFFF) ++ tail)) ++
            bs.drop 0xFFFF, tail) = some (bs, tail)
        rw [List.take_left' htk, List.take_append_drop]

theorem gzipDecompress_gzipCompress (bs : List Nat) :
    gzipDecompress (gzipCompress bs) = some bs := by
  have hrest : gzipCompress bs =
      0x1F :: 0x8B :: 8 :: 0 :: 0 :: 0 :: 0 :: 0 :: 0 :: 255 ::
        (storedBlocks bs ++ (le4 (crc32 bs) ++ le4 (bs.length % 2 ^ 32))) := by
    simp [gzipCompress, gzipHeader, List.append_assoc]
  rw [hrest, gzipDecompress]
  have hlen : bs.length <
      (storedBlocks bs ++ (le4 (crc32 bs) ++ le4 (bs.length % 2 ^ 32))).length + 1 := by
    have := storedBlocksFuel_length (bs.length + 1) bs (by omega)
    simp only [List.length_append, storedBlocks] at *
    omega
  rw [storedBlocks] at *
  rw [parseStored_storedBlocks (bs.length + 1) _ bs _ (by omega) hlen]
  simp only [le4, List.cons_append, List.nil_append]
  rw [if_pos ?cond]
  case cond =>
    constructor
    · exact (leVal4_le4 (crc32 bs) (crc32_lt bs)).symm
    · exact (leVal4_le4 (bs.length % 2 ^ 32) (Nat.mod_lt _ (by norm_num))).symm

theorem blobDecode_gzipCompress (s : String) :
    blobDecode (gzipCompress (strBytes s)) = some s := by
  rw [blobDecode, gzipDecompress_gzipCompress]
  simp [utf8DecodeString_strBytes]

/-! ### Step lemmas for the four operations -/

theorem create_version_dedup (u ts dp content : String) (cm : Option String)
    (d : DocDir) (e : VersionEntry)
    (hhead : (read_manifest d.manifest).versions.head? = some e)
    (hhash : e.content_hash = content_hash content) :
    create_version true u ts dp content cm d = .ok (e, d) := by
  simp [create_version, hhead, hhash]

theorem create_version_write (u ts dp content : String) (cm : Option String)
    (d : DocDir)
    (hno : ∀ e, (read_manifest d.manifest).versions.head? = some e →
      e.content_hash ≠ content_hash content) :
    create_version true u ts dp content cm d = .ok (newEntry u ts dp content cm,
      ⟨.stored ⟨(newEntry u ts dp content cm ::
          (read_manifest d.manifest).versions).take 100⟩,
       ((newEntry u ts dp content cm ::
          (read_manifest d.manifest).versions).drop 100).foldl
         (fun bs v => blobRemove v.id bs)
         (blobWrite u (gzipCompress (strBytes content)) d.blobs)⟩) := by
  cases hh : (read_manifest d.manifest).versions.head? with
  | none => simp [create_version, hh, create_versionWrite, newEntry]
  | some e =>
    have hne := hno e hh
    simp [create_version, hh, hne, create_versionWrite, newEntry]

/-- Best-effort eviction never disturbs a blob whose id is not evicted:
the head survives a fold of removals for other ids. -/
theorem foldl_blobRemove_cons (removed : List VersionEntry)
    (x : String × List Nat) (t : List (String × List Nat))
    (hx : ∀ v ∈ removed, v.id ≠ x.1) :
    removed.foldl (fun bs v => blobRemove v.id bs) (x :: t) =
      x :: removed.foldl (fun bs v => blobRemove v.id bs) t := by
  induction removed generalizing t with
  | nil => rfl
  | cons v vs ih =>
    have hv : v.id ≠ x.1 := hx v (by simp)
    have hrec : ∀ w ∈ vs, w.id ≠ x.1 := fun w hw => hx w (by simp [hw])
    simp only [List.foldl_cons, blobRemove]
    rw [List.filter_cons_of_pos (by simpa using hv.symm)]
    exact ih _ hrec

theorem countP_foldl_blobRemove_le (q : String × List Nat → Bool)
    (removed : List VersionEntry) (bs : List (String × List Nat)) :
    (removed.foldl (fun bs v => blobRemove v.id bs) bs).countP q ≤
      bs.countP q := by
  induction removed generalizing bs with
  | nil => exact Nat.le_refl _
  | cons v vs ih =>
    calc (vs.foldl (fun bs v => blobRemove v.id bs)
            (blobRemove v.id bs)).countP q
        ≤ (blobRemove v.id bs).countP q := ih _
      _ ≤ bs.countP q := (List.filter_sublist bs).countP_le q

/-! ### Claims C10, C1, C3 — dedup and round-trip behaviour of
`create_version` -/

/-- C10: when `create_version` takes the dedup path (the incoming content
hash equals the stored head's `content_hash`), the returned entry is the
stored head verbatim — timestamp, comment and word count are the ones
recorded at the earlier creation — and the state is unchanged, so the
comment supplied to this call is neither persisted nor returned. -/
theorem claim_C10_dedup_returns_stored_head
    (u ts dp content : String) (cm : Option String) (d : DocDir)
    (e : VersionEntry)
    (hhead : (read_manifest d.manifest).versions.head? = some e)
    (hhash : e.content_hash = content_hash content) :
    create_version true u ts dp content cm d = .ok (e, d) ∧
    ∀ r, create_version true u ts dp content cm d = .ok r →
      r.1.comment = e.comment ∧ r.1.timestamp = e.timestamp ∧
      r.1.word_count = e.word_count := by
  have h := create_version_dedup u ts dp content cm d e hhead hhash
  refine ⟨h, ?_⟩
  intro r hr
  rw [h] at hr
  cases hr
  exact ⟨rfl, rfl, rfl⟩

/-- C10 witness: a concrete dedup call returns the stored head with its
original comment, discarding the newly supplied one. -/
theorem claim_C10_witness :
    create_version true "u9" "t9" "doc" "x" (some "new comment")
      ⟨.stored ⟨[⟨"u0", "doc", "t0", none, 1, 10, content_hash "x"⟩]⟩, []⟩ =
      .ok (⟨"u0", "doc", "t0", none, 1, 10, content_hash "x"⟩,
        ⟨.stored ⟨[⟨"u0", "doc", "t0", none, 1, 10, content_hash "x"⟩]⟩, []⟩) ∧
    (⟨"u0", "doc", "t0", none, 1, 10, content_hash "x"⟩ :
      VersionEntry).comment ≠ some "new comment" :=
  ⟨(claim_C10_dedup_returns_stored_head "u9" "t9" "doc" "x"
      (some "new comment")
      ⟨.stored ⟨[⟨"u0", "doc", "t0", none, 1, 10, content_hash "x"⟩]⟩, []⟩
      ⟨"u0", "doc", "t0", none, 1, 10, content_hash "x"⟩ rfl rfl).1, by simp⟩

/-- C1: from a state whose head is not already a hash hit and which holds no
blob of this content, two successive `create_version` calls with the same
content return the same `VersionEntry` both times; the second call is a
no-op on state (no blob write, no manifest write), and exactly one blob
file holds this content. -/
theorem claim_C1_idempotent_create
    (u1 ts1 u2 ts2 dp content : String) (cm1 cm2 : Option String)
    (d : DocDir) (e : VersionEntry) (d1 : DocDir)
    (hfresh : ∀ v ∈ (read_manifest d.manifest).versions, v.id ≠ u1)
    (hnew : ∀ x ∈ d.blobs, x.2 ≠ gzipCompress (strBytes content))
    (hhead : ∀ e0, (read_manifest d.manifest).versions.head? = some e0 →
      e0.content_hash ≠ content_hash content)
    (h1 : create_version true u1 ts1 dp content cm1 d = .ok (e, d1)) :
    create_version true u2 ts2 dp content cm2 d1 = .ok (e, d1) ∧
    d1.blobs.countP (fun x => x.2 = gzipCompress (strBytes content)) = 1 := by
  rw [create_version_write u1 ts1 dp content cm1 d hhead] at h1
  injection h1 with h1
  injection h1 with he hd
  subst he hd
  have hremoved : ∀ v ∈ ((newEntry u1 ts1 dp content cm1 ::
      (read_manifest d.manifest).versions).drop 100), v.id ≠ u1 := by
    intro v hv
    rw [List.drop_succ_cons] at hv
    exact hfresh v (List.mem_of_mem_drop hv)
  have hblobs : ((newEntry u1 ts1 dp content cm1 ::
      (read_manifest d.manifest).versions).drop 100).foldl
        (fun bs v => blobRemove v.id bs)
        (blobWrite u1 (gzipCompress (strBytes content)) d.blobs) =
      (u1, gzipCompress (strBytes content)) ::
        ((newEntry u1 ts1 dp content cm1 ::
          (read_manifest d.manifest).versions).drop 100).foldl
          (fun bs v => blobRemove v.id bs)
          (d.blobs.filter (fun p => p.1 ≠ u1)) := by
    rw [blobWrite]
    exact foldl_blobRemove_cons _ _ _ hremoved
  constructor
  · apply create_version_dedup
    · show ((newEntry u1 ts1 dp content cm1 ::
        (read_manifest d.manifest).versions).take 100).head? = _
      rw [List.take_succ_cons, List.head?_cons]
    · rfl
  · show (((newEntry u1 ts1 dp content cm1 ::
      (read_manifest d.manifest).versions).drop 100).foldl
        (fun bs v => blobRemove v.id bs)
        (blobWrite u1 (gzipCompress (strBytes content)) d.blobs)).countP _ = 1
    rw [hblobs]
    have hle : (((newEntry u1 ts1 dp content cm1 ::
        (read_manifest d.manifest).versions).drop 100).foldl
          (fun bs v => blobRemove v.id bs)
          (d.blobs.filter (fun p => p.1 ≠ u1))).countP
          (fun x => x.2 = gzipCompress (strBytes content)) ≤
        (d.blobs.filter (fun p => p.1 ≠ u1)).countP
          (fun x => x.2 = gzipCompress (strBytes content)) := by
      exact countP_foldl_blobRemove_le _ _ _
    have hz : (d.blobs.filter (fun p => p.1 ≠ u1)).countP
        (fun x => x.2 = gzipCompress (strBytes content)) = 0 := by
      rw [List.countP_eq_zero]
      intro a ha
      have := hnew a (List.mem_of_mem_filter ha)
      simpa using this
    have hz2 : (((newEntry u1 ts1 dp content cm1 ::
        (read_manifest d.manifest).versions).drop 100).foldl
          (fun bs v => blobRemove v.id bs)
          (d.blobs.filter (fun p => p.1 ≠ u1))).countP
          (fun x => x.2 = gzipCompress (strBytes content)) = 0 := by
      omega
    rw [List.countP_cons, hz2]
    simp

/-- C1 witness: two successive creates of `"hello"` from the empty store. -/
theorem claim_C1_witness :
    ∃ e d1, create_version true "u1" "t1" "doc" "hello" none
        ⟨.absent, []⟩ = .ok (e, d1) ∧
      create_version true "u2" "t2" "doc" "hello" none d1 = .ok (e, d1) ∧
      d1.blobs.countP (fun x => x.2 = gzipCompress (strBytes "hello")) = 1 := by
  obtain ⟨e, d1, h1⟩ : ∃ e d1, create_version true "u1" "t1" "doc" "hello"
      none ⟨.absent, []⟩ = .ok (e, d1) :=
    ⟨_, _, create_version_write "u1" "t1" "doc" "hello" none ⟨.absent, []⟩
      (by intro e0 h; simp [read_manifest] at h)⟩
  have h := claim_C1_idempotent_create "u1" "t1" "u2" "t2" "doc" "hello"
    none none ⟨.absent, []⟩ e d1
    (by intro v hv; simp [read_manifest] at hv)
    (by intro x hx; simp at hx)
    (by intro e0 he0; simp [read_manifest] at he0) h1
  exact ⟨e, d1, h1, h.1, h.2⟩

/-- C3: if `create_version` succeeds through the write path with a fresh id,
`restore_version` with the returned entry's id on the resulting state
returns the content unchanged (gzip compress then decompress round-trips,
including UTF-8 re-validation). -/
theorem claim_C3_create_restore_round_trip
    (u1 ts1 dp content : String) (cm1 : Option String)
    (d : DocDir) (e : VersionEntry) (d1 : DocDir)
    (hfresh : ∀ v ∈ (read_manifest d.manifest).versions, v.id ≠ u1)
    (hhead : ∀ e0, (read_manifest d.manifest).versions.head? = some e0 →
      e0.content_hash ≠ content_hash content)
    (h1 : create_version true u1 ts1 dp content cm1 d = .ok (e, d1)) :
    restore_version true e.id dp d1 = .ok content := by
  rw [create_version_write u1 ts1 dp content cm1 d hhead] at h1
  injection h1 with h1
  injection h1 with he hd
  subst he hd
  have hremoved : ∀ v ∈ ((read_manifest d.manifest).versions.drop 99),
      v.id ≠ u1 := by
    intro v hv
    exact hfresh v (List.mem_of_mem_drop hv)
  have hblobs : ((read_manifest d.manifest).versions.drop 99).foldl
        (fun bs v => blobRemove v.id bs)
        (blobWrite u1 (gzipCompress (strBytes content)) d.blobs) =
      (u1, gzipCompress (strBytes content)) ::
        ((read_manifest d.manifest).versions.drop 99).foldl
          (fun bs v => blobRemove v.id bs)
          (d.blobs.filter (fun p => p.1 ≠ u1)) := by
    rw [blobWrite]
    exact foldl_blobRemove_cons _ _ _ hremoved
  have hget : blobGet (newEntry u1 ts1 dp content cm1).id
      (((read_manifest d.manifest).versions.drop 99).foldl
          (fun bs v => blobRemove v.id bs)
          (blobWrite u1 (gzipCompress (strBytes content)) d.blobs)) =
      some (gzipCompress (strBytes content)) := by
    rw [hblobs, blobGet]
    rw [List.find?_cons_of_pos _ (by simp [newEntry])]
    rfl
  simp only [List.drop_succ_cons]
  simp [restore_version, hget, blobDecode_gzipCompress]

/-- C3 witness: create `"héllo ∀"` from the empty store and restore it. -/
theorem claim_C3_witness :
    ∃ e d1, create_version true "u1" "t1" "doc" "héllo ∀" none
        ⟨.absent, []⟩ = .ok (e, d1) ∧
      restore_version true e.id "doc" d1 = .ok "héllo ∀" := by
  obtain ⟨e, d1, h1⟩ : ∃ e d1, create_version true "u1" "t1" "doc" "héllo ∀"
      none ⟨.absent, []⟩ = .ok (e, d1) :=
    ⟨_, _, create_version_write "u1" "t1" "doc" "héllo ∀" none ⟨.absent, []⟩
      (by intro e0 h; simp [read_manifest] at h)⟩
  exact ⟨e, d1, h1, claim_C3_create_restore_round_trip "u1" "t1" "doc"
    "héllo ∀" none ⟨.absent, []⟩ e d1
    (by intro v hv; simp [read_manifest] at hv)
    (by intro e0 he0; simp [read_manifest] at he0) h1⟩

/-! ### Claim C4 — `delete_version` on a missing blob -/

/-- C4 counterexample: with no blob file at all for id `"v1"`,
`delete_version` succeeds (the code guards removal behind `exists()`), so
the claim that a missing blob is surfaced as an error is false. -/
theorem claim_C4_counterexample :
    delete_version true "v1" "doc" ⟨.absent, []⟩ = .ok ⟨.stored ⟨[]⟩, []⟩ ∧
    ∀ msg, delete_version true "v1" "doc" ⟨.absent, []⟩ ≠ .error msg := by
  have h : delete_version true "v1" "doc" ⟨.absent, []⟩ =
      .ok ⟨.stored ⟨[]⟩, []⟩ := rfl
  refine ⟨h, ?_⟩
  intro msg
  rw [h]
  simp

/-- C4 amended: `delete_version` with an absent blob file succeeds — the
removal is skipped (the code checks `exists()` first), the manifest is
still read, filtered by id and rewritten, and the blobs are untouched.
An error can arise only from lock failure, removal of an existing file, or
the manifest write. -/
theorem claim_C4_amended_missing_blob_tolerated (vid dp : String) (d : DocDir)
    (habsent : blobGet vid d.blobs = none) :
    delete_version true vid dp d =
      .ok ⟨.stored ⟨(read_manifest d.manifest).versions.filter
        (fun v => v.id ≠ vid)⟩, d.blobs⟩ := by
  simp [delete_version, habsent]

/-- C4 amended witness: deleting id `"v1"` from a store holding only an
unrelated manifest entry and no blob files. -/
theorem claim_C4_amended_witness :
    delete_version true "v1" "doc"
      ⟨.stored ⟨[⟨"u0", "doc", "t0", none, 1, 10, "h0"⟩]⟩, []⟩ =
      .ok ⟨.stored ⟨[⟨"u0", "doc", "t0", none, 1, 10, "h0"⟩]⟩, []⟩ := by
  have h := claim_C4_amended_missing_blob_tolerated "v1" "doc"
    ⟨.stored ⟨[⟨"u0", "doc", "t0", none, 1, 10, "h0"⟩]⟩, []⟩ rfl
  rw [h]
  rfl

/-! ### Claim C6 — `list_versions` never raises -/

/-- C6: `list_versions` is total and never surfaces an error: lock failure,
an absent manifest, an unreadable manifest and a corrupt manifest all
degrade to the empty list, and a stored manifest is returned as is. -/
theorem claim_C6_list_versions_total (dp : String) (d : DocDir)
    (bs : List (String × List Nat)) (m : VersionManifest) :
    list_versions false dp d = [] ∧
    list_versions true dp ⟨.absent, bs⟩ = [] ∧
    list_versions true dp ⟨.unreadable, bs⟩ = [] ∧
    list_versions true dp ⟨.corrupt, bs⟩ = [] ∧
    list_versions true dp ⟨.stored m, bs⟩ = m.versions :=
  ⟨rfl, rfl, rfl, rfl, rfl⟩

/-! ### Claim C8 — `restore_version` is manifest-free and blob-indexed -/

/-- C8: `restore_version` neither reads nor requires the manifest — its
result is invariant under any change of the manifest file; a missing blob
fails with the not-found error, a present but undecodable blob fails with
the decompress error, which is a different error string, and a present,
decodable blob succeeds with its content even if the manifest is absent or
corrupt. -/
theorem claim_C8_restore_blob_indexed (vid dp : String)
    (mf mf' : ManifestFile) (bs : List (String × List Nat)) :
    restore_version true vid dp ⟨mf, bs⟩ = restore_version true vid dp ⟨mf', bs⟩ ∧
    (blobGet vid bs = none →
      restore_version true vid dp ⟨mf, bs⟩ =
        .error ("Version file not found: " ++ vid)) ∧
    (∀ bytes, blobGet vid bs = some bytes → blobDecode bytes = none →
      restore_version true vid dp ⟨mf, bs⟩ = .error "Decompress error" ∧
      "Decompress error" ≠ "Version file not found: " ++ vid) ∧
    (∀ bytes content, blobGet vid bs = some bytes →
      blobDecode bytes = some content →
      restore_version true vid dp ⟨mf, bs⟩ = .ok content) := by
  refine ⟨rfl, ?_, ?_, ?_⟩
  · intro h
    simp [restore_version, h]
  · intro bytes h hdec
    refine ⟨by simp [restore_version, h, hdec], ?_⟩
    intro heq
    have hlen := congrArg String.length heq
    rw [String.length_append] at hlen
    have h16 : "Decompress error".length = 16 := rfl
    have h24 : "Version file not found: ".length = 24 := rfl
    omega
  · intro bytes content h hdec
    simp [restore_version, h, hdec]

/-- C8 witness: a store with one undecodable blob `"v"`; restoring `"v"`
hits the decompress error, restoring the absent `"w"` hits the not-found
error, and a well-formed blob `"u"` restores to its content with the
manifest corrupt. -/
theorem claim_C8_witness :
    restore_version true "v" "doc"
      ⟨.corrupt, [("v", [0]), ("u", gzipCompress (strBytes "ok"))]⟩ =
      .error "Decompress error" ∧
    restore_version true "w" "doc"
      ⟨.corrupt, [("v", [0]), ("u", gzipCompress (strBytes "ok"))]⟩ =
      .error ("Version file not found: " ++ "w") ∧
    restore_version true "u" "doc"
      ⟨.corrupt, [("v", [0]), ("u", gzipCompress (strBytes "ok"))]⟩ =
      .ok "ok" := by
  refine ⟨?_, ?_, ?_⟩
  · exact ((claim_C8_restore_blob_indexed "v" "doc" .corrupt .corrupt
      [("v", [0]), ("u", gzipCompress (strBytes "ok"))]).2.2.1 [0]
      (by rfl) (by decide)).1
  · exact (claim_C8_restore_blob_indexed "w" "doc" .corrupt .corrupt
      [("v", [0]), ("u", gzipCompress (strBytes "ok"))]).2.1 (by rfl)
  · exact (claim_C8_restore_blob_indexed "u" "doc" .corrupt .corrupt
      [("v", [0]), ("u", gzipCompress (strBytes "ok"))]).2.2.2
      (gzipCompress (strBytes "ok")) "ok" (by rfl)
      (blobDecode_gzipCompress "ok")

/-! ### Claim C2 — retention machinery -/

/-- Effect of one write-path create on the blob directory when the history
is a truncated newest-first ledger: the fresh blob is added and, when the
ledger overflows, exactly the evicted (100th old) entry's blob is removed. -/
theorem blob_evict (dp : String) (hist : List CreateOp) (x : CreateOp)
    (gz : List Nat)
    (hid : ∀ o ∈ hist, o.id ≠ x.id)
    (hnodup : (hist.map (fun o => o.id)).Nodup) :
    (((hist.map (fun o => newEntry o.id o.ts dp o.content o.comment)).take
        100).drop 99).foldl (fun bs v => blobRemove v.id bs)
      (blobWrite x.id gz
        ((hist.map (fun o => (o.id, gzipCompress (strBytes o.content)))).take
          100)) =
      (x.id, gz) ::
        (hist.map (fun o => (o.id, gzipCompress (strBytes o.content)))).take
          99 := by
  have hkeys : ∀ a ∈ (hist.map
      (fun o => (o.id, gzipCompress (strBytes o.content)))).take 100,
      a.1 ≠ x.id := by
    intro a ha
    obtain ⟨o, ho, rfl⟩ := List.mem_map.1 (List.mem_of_mem_take ha)
    exact hid o ho
  have hfil : ((hist.map
      (fun o => (o.id, gzipCompress (strBytes o.content)))).take 100).filter
        (fun p => p.1 ≠ x.id) =
      (hist.map (fun o => (o.id, gzipCompress (strBytes o.content)))).take
        100 :=
    List.filter_eq_self.2 (fun a ha => by simpa using hkeys a ha)
  have hrem_ids : ∀ v ∈ ((hist.map
      (fun o => newEntry o.id o.ts dp o.content o.comment)).take 100).drop 99,
      v.id ≠ x.id := by
    intro v hv
    obtain ⟨o, ho, rfl⟩ :=
      List.mem_map.1 (List.mem_of_mem_take (List.mem_of_mem_drop hv))
    exact hid o ho
  rw [blobWrite, hfil, foldl_blobRemove_cons _ _ _ hrem_ids]
  congr 1
  rcases Nat.lt_or_ge hist.length 100 with hlen | hlen
  · have h1 : ((hist.map
        (fun o => newEntry o.id o.ts dp o.content o.comment)).take 100).drop
          99 = [] := by
      rw [List.drop_eq_nil_iff]
      simp only [List.length_take, List.length_map]
      omega
    rw [h1, List.foldl_nil, List.take_of_length_le, List.take_of_length_le]
    · simp only [List.length_map]; omega
    · simp only [List.length_map]; omega
  · obtain ⟨y, t2, ht2⟩ : ∃ y t2, hist.drop 99 = y :: t2 := by
      cases ht : hist.drop 99 with
      | nil =>
        rw [List.drop_eq_nil_iff] at ht
        omega
      | cons y t2 => exact ⟨y, t2, rfl⟩
    have hsplit : hist = hist.take 99 ++ y :: t2 := by
      rw [← ht2, List.take_append_drop]
    have hlen99 : (hist.take 99).length = 99 := by
      simp only [List.length_take, Nat.min_def]
      split_ifs <;> omega
    have hy_nodup : y.id ∉ (hist.take 99).map (fun o => o.id) := by
      intro hy
      have hnd := hnodup
      rw [hsplit, List.map_append, List.map_cons] at hnd
      rcases List.nodup_append.1 hnd with ⟨_, _, hdisj⟩
      exact hdisj hy (by simp)
    have hmapf : hist.map (fun o => newEntry o.id o.ts dp o.content o.comment) =
        (hist.take 99).map (fun o => newEntry o.id o.ts dp o.content o.comment)
          ++ newEntry y.id y.ts dp y.content y.comment ::
            t2.map (fun o => newEntry o.id o.ts dp o.content o.comment) := by
      conv_lhs => rw [hsplit]
      rw [List.map_append, List.map_cons]
    have hmapg : hist.map (fun o => (o.id, gzipCompress (strBytes o.content))) =
        (hist.take 99).map (fun o => (o.id, gzipCompress (strBytes o.content)))
          ++ (y.id, gzipCompress (strBytes y.content)) ::
            t2.map (fun o => (o.id, gzipCompress (strBytes o.content))) := by
      conv_lhs => rw [hsplit]
      rw [List.map_append, List.map_cons]
    have hAlen : ((hist.take 99).map
        (fun o => newEntry o.id o.ts dp o.content o.comment)).length = 99 := by
      rw [List.length_map, hlen99]
    have hBlen : ((hist.take 99).map
        (fun o => (o.id, gzipCompress (strBytes o.content)))).length = 99 := by
      rw [List.length_map, hlen99]
    have hmf : ((hist.map
        (fun o => newEntry o.id o.ts dp o.content o.comment)).take 100).drop
          99 = [newEntry y.id y.ts dp y.content y.comment] := by
      rw [hmapf, show (100 : Nat) = ((hist.take 99).map
        (fun o => newEntry o.id o.ts dp o.content o.comment)).length + 1 from
        by rw [hAlen], List.take_append, List.drop_left' hAlen]
      rfl
    have hmg : ((hist.map
        (fun o => (o.id, gzipCompress (strBytes o.content)))).take 100) =
        ((hist.take 99).map
          (fun o => (o.id, gzipCompress (strBytes o.content)))) ++
          [(y.id, gzipCompress (strBytes y.content))] := by
      rw [hmapg, show (100 : Nat) = ((hist.take 99).map
        (fun o => (o.id, gzipCompress (strBytes o.content)))).length + 1 from
        by rw [hBlen], List.take_append]
      rfl
    rw [hmf, hmg, List.foldl_cons, List.foldl_nil,
      show (newEntry y.id y.ts dp y.content y.comment).id = y.id from rfl,
      blobRemove, List.filter_append]
    have hfil2 : (((hist.take 99).map
        (fun o => (o.id, gzipCompress (strBytes o.content)))).filter
          (fun p => p.1 ≠ y.id)) =
        ((hist.take 99).map
          (fun o => (o.id, gzipCompress (strBytes o.content)))) := by
      apply List.filter_eq_self.2
      intro a ha
      obtain ⟨o, ho, rfl⟩ := List.mem_map.1 ha
      simp only [ne_eq, decide_eq_true_eq]
      intro hoy
      exact hy_nodup (hoy ▸ List.mem_map_of_mem (fun o => o.id) ho)
    have hfil3 : ([(y.id, gzipCompress (strBytes y.content))].filter
        (fun p => p.1 ≠ y.id)) = [] := by
      simp
    rw [hfil2, hfil3, List.append_nil, List.map_take]

/-- Functional characterisation of a run of scripted creates: starting from
a state that stores a truncated newest-first history, the manifest and the
blob directory remain the 100-truncation of the extended history, provided
ids are fresh and consecutive content hashes differ. -/
theorem createMany_hist (dp : String) (ops : List CreateOp) :
    ∀ (hist : List CreateOp) (d : DocDir),
      (read_manifest d.manifest).versions =
        (hist.map (fun o => newEntry o.id o.ts dp o.content o.comment)).take
          100 →
      d.blobs =
        (hist.map (fun o => (o.id, gzipCompress (strBytes o.content)))).take
          100 →
      ((ops.map (fun o => o.id)) ++ (hist.map (fun o => o.id))).Nodup →
      List.Chain' (fun a b => content_hash a.content ≠ content_hash b.content)
        ops →
      (∀ y, hist.head? = some y → ∀ x, ops.head? = some x →
        content_hash x.content ≠ content_hash y.content) →
      (read_manifest (createMany dp ops d).manifest).versions =
        ((ops.reverse ++ hist).map
          (fun o => newEntry o.id o.ts dp o.content o.comment)).take 100 ∧
      (createMany dp ops d).blobs =
        ((ops.reverse ++ hist).map
          (fun o => (o.id, gzipCompress (strBytes o.content)))).take 100 := by
  induction ops with
  | nil =>
    intro hist d hv hb _ _ _
    simpa [createMany] using ⟨hv, hb⟩
  | cons x ops ih =>
    intro hist d hv hb hnd hch hconn
    rw [List.map_cons, List.cons_append] at hnd
    have hxfresh : ∀ o ∈ hist, o.id ≠ x.id := by
      intro o ho hox
      have hx_mem : x.id ∈ ops.map (fun o => o.id) ++
          hist.map (fun o => o.id) := by
        refine List.mem_append.2 (Or.inr ?_)
        exact hox ▸ List.mem_map_of_mem (fun o => o.id) ho
      exact (List.nodup_cons.1 hnd).1 hx_mem
    have hno : ∀ e0, (read_manifest d.manifest).versions.head? = some e0 →
        e0.content_hash ≠ content_hash x.content := by
      intro e0 he0
      rw [hv] at he0
      cases hist with
      | nil => simp at he0
      | cons y hist' =>
        rw [List.map_cons, List.take_succ_cons, List.head?_cons] at he0
        cases he0
        exact Ne.symm (hconn y rfl x rfl)
    have hstep : createStep dp d x =
        ⟨.stored ⟨(newEntry x.id x.ts dp x.content x.comment ::
            (read_manifest d.manifest).versions).take 100⟩,
          ((newEntry x.id x.ts dp x.content x.comment ::
            (read_manifest d.manifest).versions).drop 100).foldl
            (fun bs v => blobRemove v.id bs)
            (blobWrite x.id (gzipCompress (strBytes x.content)) d.blobs)⟩ := by
      rw [createStep,
        create_version_write x.id x.ts dp x.content x.comment d hno]
    have hv' : (read_manifest (createStep dp d x).manifest).versions =
        (((x :: hist).map
          (fun o => newEntry o.id o.ts dp o.content o.comment)).take 100) := by
      rw [hstep]
      show (newEntry x.id x.ts dp x.content x.comment ::
        (read_manifest d.manifest).versions).take 100 = _
      rw [hv, List.map_cons, List.take_succ_cons, List.take_succ_cons,
        List.take_take]
      norm_num
    have hb' : (createStep dp d x).blobs =
        (((x :: hist).map
          (fun o => (o.id, gzipCompress (strBytes o.content)))).take 100) := by
      rw [hstep]
      show ((newEntry x.id x.ts dp x.content x.comment ::
        (read_manifest d.manifest).versions).drop 100).foldl
          (fun bs v => blobRemove v.id bs)
          (blobWrite x.id (gzipCompress (strBytes x.content)) d.blobs) = _
      rw [hv, hb, List.drop_succ_cons]
      rw [blob_evict dp hist x (gzipCompress (strBytes x.content)) hxfresh]
      · rw [List.map_cons, List.take_succ_cons]
      · have := hnd.of_cons
        rcases List.nodup_append.1 this with ⟨_, h2, _⟩
        exact h2
    have hnd' : ((ops.map (fun o => o.id)) ++
        ((x :: hist).map (fun o => o.id))).Nodup := by
      rw [List.map_cons]
      exact List.perm_middle.symm.nodup hnd
    have hch' : List.Chain'
        (fun a b => content_hash a.content ≠ content_hash b.content) ops :=
      hch.tail
    have hconn' : ∀ y, (x :: hist).head? = some y → ∀ z, ops.head? = some z →
        content_hash z.content ≠ content_hash y.content := by
      intro y hy z hz
      rw [List.head?_cons] at hy
      cases hy
      have := (List.chain'_cons'.1 hch).1 z hz
      exact Ne.symm this
    obtain ⟨ihv, ihb⟩ := ih (x :: hist) (createStep dp d x) hv' hb' hnd' hch'
      hconn'
    rw [createMany, List.foldl_cons]
    constructor
    · rw [show List.foldl (createStep dp) (createStep dp d x) ops =
        createMany dp ops (createStep dp d x) from rfl, ihv,
        List.reverse_cons, List.append_assoc, List.singleton_append]
    · rw [show List.foldl (createStep dp) (createStep dp d x) ops =
        createMany dp ops (createStep dp d x) from rfl, ihb,
        List.reverse_cons, List.append_assoc, List.singleton_append]

/-- C2 counterexample: from a manifest state already holding 101 entries
whose head hash matches the incoming content, `create_version` succeeds
through the dedup path and leaves all 101 entries in place, so "after any
successful create the manifest holds at most 100 entries" fails for
arbitrary manifest states. -/
theorem claim_C2_counterexample :
    create_version true "u9" "t9" "doc" "x" none
      ⟨.stored ⟨List.replicate 101
        ⟨"u0", "doc", "t0", none, 1, 10, content_hash "x"⟩⟩, []⟩ =
      .ok (⟨"u0", "doc", "t0", none, 1, 10, content_hash "x"⟩,
        ⟨.stored ⟨List.replicate 101
          ⟨"u0", "doc", "t0", none, 1, 10, content_hash "x"⟩⟩, []⟩) ∧
    (read_manifest (ManifestFile.stored ⟨List.replicate 101
      ⟨"u0", "doc", "t0", none, 1, 10, content_hash "x"⟩⟩)).versions.length =
      101 := by
  constructor
  · exact create_version_dedup "u9" "t9" "doc" "x" none _
      ⟨"u0", "doc", "t0", none, 1, 10, content_hash "x"⟩ rfl rfl
  · simp [read_manifest]

/-- C2 amended: (i) from any manifest state holding at most 100 entries,
any successful `create_version` leaves at most 100 entries; (ii) from the
empty store, after 101 creates with pairwise-distinct ids and
pairwise-distinct consecutive content hashes, `list_versions` returns
exactly 100 entries and the evicted (oldest) entry's blob file no longer
exists; eviction is best-effort and never fails the create call. -/
theorem claim_C2_amended_retention :
    (∀ (u ts dp content : String) (cm : Option String) (d : DocDir)
        (e : VersionEntry) (d' : DocDir),
      create_version true u ts dp content cm d = .ok (e, d') →
      (read_manifest d.manifest).versions.length ≤ 100 →
      (read_manifest d'.manifest).versions.length ≤ 100) ∧
    (∀ (dp : String) (ops : List CreateOp), ops.length = 101 →
      (ops.map (fun o => o.id)).Nodup →
      List.Chain' (fun a b => content_hash a.content ≠ content_hash b.content)
        ops →
      (list_versions true dp (createMany dp ops ⟨.absent, []⟩)).length = 100 ∧
      ∀ o0, ops.head? = some o0 →
        blobGet o0.id (createMany dp ops ⟨.absent, []⟩).blobs = none) := by
  constructor
  · intro u ts dp content cm d e d' hok hle
    cases hh : (read_manifest d.manifest).versions.head? with
    | none =>
      rw [create_version_write u ts dp content cm d
        (by intro e0 h; rw [hh] at h; cases h)] at hok
      injection hok with hok
      injection hok with he hd
      subst hd
      show ((newEntry u ts dp content cm ::
        (read_manifest d.manifest).versions).take 100).length ≤ 100
      rw [List.length_take]
      omega
    | some e0 =>
      by_cases hhash : e0.content_hash = content_hash content
      · rw [create_version_dedup u ts dp content cm d e0 hh hhash] at hok
        injection hok with hok
        injection hok with he hd
        subst hd
        exact hle
      · rw [create_version_write u ts dp content cm d
          (by intro e1 h1; rw [hh] at h1; cases h1; exact hhash)] at hok
        injection hok with hok
        injection hok with he hd
        subst hd
        show ((newEntry u ts dp content cm ::
          (read_manifest d.manifest).versions).take 100).length ≤ 100
        rw [List.length_take]
        omega
  · intro dp ops hlen hnodup hchain
    obtain ⟨hv, hb⟩ := createMany_hist dp ops [] ⟨.absent, []⟩
      (by simp [read_manifest]) (by simp) (by simpa using hnodup) hchain
      (by intro y hy; simp at hy)
    constructor
    · show (read_manifest (createMany dp ops ⟨.absent, []⟩).manifest).versions.length = 100
      rw [hv, List.length_take, List.length_map, List.append_nil,
        List.length_reverse, hlen]
      norm_num
    · intro o0 ho0
      cases ops with
      | nil => cases ho0
      | cons o1 tl =>
        rw [List.head?_cons] at ho0
        cases ho0
        have htl : tl.length = 100 := by
          simp at hlen
          omega
        rw [hb, List.append_nil, List.reverse_cons, List.map_append]
        have hmlen : ((tl.reverse).map
            (fun o => (o.id, gzipCompress (strBytes o.content)))).length =
            100 := by
          rw [List.length_map, List.length_reverse, htl]
        rw [List.take_left' hmlen]
        rw [blobGet, List.find?_eq_none.2, Option.map_none']
        intro pair hpair
        obtain ⟨o, ho, rfl⟩ := List.mem_map.1 hpair
        have ho' : o ∈ tl := List.mem_reverse.1 ho
        have hno0 : o0.id ∉ tl.map (fun o => o.id) := by
          rw [List.map_cons] at hnodup
          exact (List.nodup_cons.1 hnodup).1
        simp only [decide_eq_true_eq]
        intro hoid
        exact hno0 (hoid ▸ List.mem_map_of_mem (fun o => o.id) ho')

/-- Consecutive contents of `c2ops` alternate between `"a"` and `"b"`, so
consecutive content hashes differ once the two hashes differ. -/
theorem c2ops_chain (hab : content_hash "a" ≠ content_hash "b") :
    List.Chain' (fun a b => content_hash a.content ≠ content_hash b.content)
      c2ops := by
  rw [c2ops, List.chain'_map,
    show (List.range 101) = List.range (Nat.succ 100) from rfl,
    List.chain'_range_succ]
  intro m hm
  by_cases hm2 : m % 2 = 0
  · have hsucc : (m + 1) % 2 = 1 := by omega
    simp only [Nat.succ_eq_add_one, hm2, hsucc]
    simpa using hab
  · have h1 : m % 2 = 1 := by omega
    have hsucc : (m + 1) % 2 = 0 := by omega
    simp only [Nat.succ_eq_add_one, h1, hsucc]
    simpa using hab.symm

/-- C2 amended witness: part (i) at a one-entry dedup call, part (ii) at
the concrete 101-create script `c2ops`. -/
theorem claim_C2_amended_witness :
    (read_manifest (DocDir.mk (.stored ⟨[⟨"u0", "doc", "t0", none, 1, 10,
        content_hash "x"⟩]⟩) []).manifest).versions.length ≤ 100 ∧
    (list_versions true "doc"
      (createMany "doc" c2ops ⟨.absent, []⟩)).length = 100 ∧
    ∀ o0, c2ops.head? = some o0 →
      blobGet o0.id (createMany "doc" c2ops ⟨.absent, []⟩).blobs = none := by
  have h1 := claim_C2_amended_retention.1 "u9" "t9" "doc" "x" none
    ⟨.stored ⟨[⟨"u0", "doc", "t0", none, 1, 10, content_hash "x"⟩]⟩, []⟩
    ⟨"u0", "doc", "t0", none, 1, 10, content_hash "x"⟩
    ⟨.stored ⟨[⟨"u0", "doc", "t0", none, 1, 10, content_hash "x"⟩]⟩, []⟩
    (create_version_dedup "u9" "t9" "doc" "x" none _
      ⟨"u0", "doc", "t0", none, 1, 10, content_hash "x"⟩ rfl rfl)
    (by simp [read_manifest])
  have h2 := claim_C2_amended_retention.2 "doc" c2ops (by decide) (by decide)
    (c2ops_chain (by decide))
  exact ⟨h1, h2.1, h2.2⟩

/-! ### Claims C9 and C5 — the truncated fingerprint and its collisions -/

theorem shaRound_length (st : List Nat) (kw : Nat × Nat) :
    (shaRound st kw).length = st.length := by
  unfold shaRound
  split <;> simp_all

theorem foldl_shaRound_length (l : List (Nat × Nat)) :
    ∀ st : List Nat, (l.foldl shaRound st).length = st.length := by
  induction l with
  | nil => intro st; rfl
  | cons kw l ih =>
    intro st
    rw [List.foldl_cons, ih, shaRound_length]

theorem shaBlock_length (hs block : List Nat) (h : hs.length = 8) :
    (shaBlock hs block).length = 8 := by
  rw [shaBlock, List.length_map, List.length_zip, foldl_shaRound_length, h]
  norm_num

theorem shaBlocksFuel_length (fuel : Nat) :
    ∀ (hs bs : List Nat), hs.length = 8 →
      (shaBlocksFuel fuel hs bs).length = 8 := by
  induction fuel with
  | zero => intro hs bs h; exact h
  | succ fuel ih =>
    intro hs bs h
    rw [shaBlocksFuel]
    split_ifs
    · exact h
    · exact ih _ _ (shaBlock_length hs _ h)

theorem flatMap_wordToBytes_length (l : List Nat) :
    (l.flatMap wordToBytes).length = 4 * l.length := by
  induction l with
  | nil => rfl
  | cons w l ih =>
    rw [List.flatMap_cons, List.length_append, ih, List.length_cons]
    simp [wordToBytes]
    omega

theorem sha256_length (msg : List Nat) : (sha256 msg).length = 32 := by
  rw [sha256, flatMap_wordToBytes_length, shaBlocks,
    shaBlocksFuel_length _ _ _ (by rfl)]

theorem sha256_bytes_lt (msg : List Nat) : ∀ b ∈ sha256 msg, b < 256 := by
  intro b hb
  rw [sha256] at hb
  obtain ⟨w, _, hbw⟩ := List.mem_flatMap.1 hb
  simp only [wordToBytes, List.mem_cons, List.not_mem_nil, or_false] at hbw
  rcases hbw with h | h | h | h <;>
    exact h ▸ Nat.mod_lt _ (by norm_num)

theorem byteListVal_append (bs : List Nat) (b : Nat) :
    byteListVal (bs ++ [b]) = byteListVal bs * 256 + b := by
  rw [byteListVal, byteListVal, List.foldl_append, List.foldl_cons,
    List.foldl_nil]

theorem byteListVal_lt (bs : List Nat) (h : ∀ b ∈ bs, b < 256) :
    byteListVal bs < 256 ^ bs.length := by
  induction bs using List.reverseRecOn with
  | nil => simp [byteListVal]
  | append_singleton l a ih =>
    have hl : ∀ b ∈ l, b < 256 := fun b hb => h b (by simp [hb])
    have ha : a < 256 := h a (by simp)
    have hv := ih hl
    rw [byteListVal_append, List.length_append, List.length_singleton,
      pow_succ]
    calc byteListVal l * 256 + a < (byteListVal l + 1) * 256 := by omega
    _ ≤ 256 ^ l.length * 256 := by
        exact Nat.mul_le_mul_right 256 (by omega)

theorem natToBytesBE_byteListVal (bs : List Nat) (h : ∀ b ∈ bs, b < 256) :
    natToBytesBE bs.length (byteListVal bs) = bs := by
  induction bs using List.reverseRecOn with
  | nil => rfl
  | append_singleton l a ih =>
    have hl : ∀ b ∈ l, b < 256 := fun b hb => h b (by simp [hb])
    have ha : a < 256 := h a (by simp)
    rw [byteListVal_append, List.length_append, List.length_singleton,
      natToBytesBE]
    have hdiv : (byteListVal l * 256 + a) / 256 = byteListVal l := by omega
    have hmod : (byteListVal l * 256 + a) % 256 = a := by omega
    rw [hdiv, hmod, ih hl]

theorem document_hash_eq_hashVal (p : String) :
    document_hash p = hexEncode (natToBytesBE 8 (hashVal p)) := by
  have hlen : ((sha256 (strBytes p)).take 8).length = 8 := by
    rw [List.length_take, sha256_length]
    norm_num
  have hbnd : ∀ b ∈ (sha256 (strBytes p)).take 8, b < 256 :=
    fun b hb => sha256_bytes_lt _ b (List.mem_of_mem_take hb)
  have h0 := natToBytesBE_byteListVal ((sha256 (strBytes p)).take 8) hbnd
  rw [hlen] at h0
  rw [document_hash, hashVal]
  exact congrArg hexEncode h0.symm

theorem hashVal_lt (p : String) : hashVal p < 2 ^ 64 := by
  have h := byteListVal_lt ((sha256 (strBytes p)).take 8)
    (fun b hb => sha256_bytes_lt _ b (List.mem_of_mem_take hb))
  rw [List.length_take, sha256_length] at h
  calc hashVal p < 256 ^ min 8 32 := h
  _ = 2 ^ 64 := by norm_num

/-- The 16-hex-character truncated fingerprint maps infinitely many strings
into finitely many values, so two distinct strings share a fingerprint. -/
theorem document_hash_collision :
    ∃ p q : String, p ≠ q ∧ document_hash p = document_hash q := by
  obtain ⟨p, q, hne, heq⟩ := Finite.exists_ne_map_eq_of_infinite
    (fun p : String => (⟨hashVal p, hashVal_lt p⟩ : Fin (2 ^ 64)))
  refine ⟨p, q, hne, ?_⟩
  have hval : hashVal p = hashVal q := congrArg Fin.val heq
  rw [document_hash_eq_hashVal, document_hash_eq_hashVal, hval]

theorem splitSlash_no_slash : ∀ cs : List Char, '/' ∉ cs →
    splitSlash cs = [cs] := by
  intro cs
  induction cs with
  | nil => intro _; rfl
  | cons c cs ih =>
    intro h
    have hc : c ≠ '/' := fun hc => h (by simp [hc])
    have hcs : '/' ∉ cs := fun hm => h (by simp [hm])
    rw [splitSlash]
    simp only [ih hcs]
    rw [if_neg hc]

theorem pathJoin_single (dir : List String) (s : String) (h : '/' ∉ s.data) :
    pathJoin dir s = dir ++ [s] := by
  rw [pathJoin, splitSlash_no_slash s.data h]
  rcases s with ⟨cs⟩
  rfl

theorem hexDigit_ne_slash : ∀ n < 16, hexDigit n ≠ '/' := by decide

theorem hexEncode_no_slash (bs : List Nat) (h : ∀ b ∈ bs, b < 256) :
    '/' ∉ (hexEncode bs).data := by
  intro hmem
  rw [hexEncode] at hmem
  obtain ⟨b, hb, hcb⟩ := List.mem_flatMap.1 hmem
  have hblt := h b hb
  simp only [List.mem_cons, List.not_mem_nil, or_false] at hcb
  rcases hcb with hcb | hcb
  · exact hexDigit_ne_slash (b / 16) (by omega) hcb.symm
  · exact hexDigit_ne_slash (b % 16) (by omega) hcb.symm

theorem document_hash_no_slash (p : String) :
    '/' ∉ (document_hash p).data := by
  rw [document_hash]
  exact hexEncode_no_slash _
    (fun b hb => sha256_bytes_lt _ b (List.mem_of_mem_take hb))

theorem flatMap_pair_length (f g : Nat → Char) (bs : List Nat) :
    (bs.flatMap (fun b => [f b, g b])).length = 2 * bs.length := by
  induction bs with
  | nil => rfl
  | cons b bs ih =>
    rw [List.flatMap_cons, List.length_append, ih, List.length_cons]
    simp
    omega

theorem document_hash_length (p : String) : (document_hash p).length = 16 := by
  rw [document_hash, hexEncode, String.length_mk, flatMap_pair_length,
    List.length_take, sha256_length]
  norm_num

theorem versions_dir_structure (root : List String) (p : String) :
    versions_dir root p = root ++ ["versions", document_hash p] := by
  rw [versions_dir]
  have h1 : pathJoin root "versions" = root ++ ["versions"] := by
    rw [pathJoin]
    congr 1
  rw [h1, pathJoin_single _ _ (document_hash_no_slash p), List.append_assoc]
  rfl

/-- C9 counterexample: the directory resolver is not injective — the
fingerprint is a 64-bit truncation of SHA-256, and infinitely many
document paths map into its finitely many values, so two distinct paths
resolve to the same directory. -/
theorem claim_C9_counterexample :
    ¬ ∀ (root : List String) (p q : String), p ≠ q →
        versions_dir root p ≠ versions_dir root q := by
  intro hclaim
  obtain ⟨p, q, hne, heq⟩ := document_hash_collision
  exact hclaim [] p q hne (by rw [versions_dir, versions_dir, heq])

/-- C9 amended: the resolver is a pure function computing
`app_data_root/versions/<16-hex-char truncated hash>`, and two document
paths with distinct fingerprints resolve to distinct directories; distinct
paths with equal (colliding) fingerprints share a directory, which the
64-bit truncation cannot exclude. -/
theorem claim_C9_amended_resolver (root : List String) (p q : String) :
    versions_dir root p = root ++ ["versions", document_hash p] ∧
    (document_hash p).length = 16 ∧
    (document_hash p ≠ document_hash q →
      versions_dir root p ≠ versions_dir root q) := by
  refine ⟨versions_dir_structure root p, document_hash_length p, ?_⟩
  intro hne heq
  rw [versions_dir_structure, versions_dir_structure] at heq
  have h2 := List.append_cancel_left heq
  injection h2 with _ h3
  injection h3 with h4 _
  exact hne h4

/-- C9 witness: `"a"` and `"b"` have distinct fingerprints, hence distinct
resolved directories. -/
theorem claim_C9_witness :
    versions_dir ["r"] "a" ≠ versions_dir ["r"] "b" :=
  (claim_C9_amended_resolver ["r"] "a" "b").2.2 (by decide)

theorem content_hash_collision :
    ∃ p q : String, p ≠ q ∧ content_hash p = content_hash q :=
  document_hash_collision

/-- C5 counterexample: the dedup fingerprint is a 64-bit truncation, so
there exist distinct contents `A ≠ B` with equal fingerprints; for such a
pair, creating `A`, then `B`, then `A` again dedups every later call
against the head, and no fresh third entry is produced — refuting the
claim as stated for arbitrary distinct contents. -/
theorem claim_C5_counterexample :
    ¬ ∀ (A B : String), A ≠ B →
      ∀ e1 d1 e2 d2 e3 d3,
        create_version true "u1" "t1" "doc" A none ⟨.absent, []⟩ =
          .ok (e1, d1) →
        create_version true "u2" "t2" "doc" B none d1 = .ok (e2, d2) →
        create_version true "u3" "t3" "doc" A none d2 = .ok (e3, d3) →
        e3.id = "u3" ∧ e3.id ≠ e1.id ∧ e3.id ≠ e2.id := by
  intro hclaim
  obtain ⟨A, B, hne, hcol⟩ := content_hash_collision
  obtain ⟨e1, d1, h1, he1, hm1⟩ : ∃ e1 d1,
      create_version true "u1" "t1" "doc" A none ⟨.absent, []⟩ =
        .ok (e1, d1) ∧ e1 = newEntry "u1" "t1" "doc" A none ∧
      (read_manifest d1.manifest).versions = [e1] :=
    ⟨_, _, create_version_write "u1" "t1" "doc" A none ⟨.absent, []⟩
      (by intro e0 h; simp [read_manifest] at h), rfl, rfl⟩
  have hhead : (read_manifest d1.manifest).versions.head? = some e1 := by
    rw [hm1, List.head?_cons]
  have h2 : create_version true "u2" "t2" "doc" B none d1 = .ok (e1, d1) :=
    create_version_dedup "u2" "t2" "doc" B none d1 e1 hhead
      (by rw [he1]; exact hcol)
  have h3 : create_version true "u3" "t3" "doc" A none d1 = .ok (e1, d1) :=
    create_version_dedup "u3" "t3" "doc" A none d1 e1 hhead
      (by rw [he1]; rfl)
  have hres := hclaim A B hne e1 d1 e1 d1 e1 d1 h1 h2 h3
  exact hres.2.1 rfl

/-- C5 amended: head-only dedup — creating `A`, then `B` with a different
content hash, then content identical to `A` again produces a new third
entry under a fresh id (not a dedup hit), because only the manifest's
newest entry is compared against the incoming hash. -/
theorem claim_C5_amended_head_only_dedup
    (dp A B u1 u2 u3 t1 t2 t3 : String)
    (hAB : content_hash A ≠ content_hash B)
    (h31 : u3 ≠ u1) (h32 : u3 ≠ u2) :
    ∃ e1 d1 e2 d2 e3 d3,
      create_version true u1 t1 dp A none ⟨.absent, []⟩ = .ok (e1, d1) ∧
      create_version true u2 t2 dp B none d1 = .ok (e2, d2) ∧
      create_version true u3 t3 dp A none d2 = .ok (e3, d3) ∧
      e3.id = u3 ∧ e3.id ≠ e1.id ∧ e3.id ≠ e2.id := by
  obtain ⟨e1, d1, h1, he1, hm1⟩ : ∃ e1 d1,
      create_version true u1 t1 dp A none ⟨.absent, []⟩ = .ok (e1, d1) ∧
      e1 = newEntry u1 t1 dp A none ∧
      (read_manifest d1.manifest).versions = [e1] :=
    ⟨_, _, create_version_write u1 t1 dp A none ⟨.absent, []⟩
      (by intro e0 h; simp [read_manifest] at h), rfl, rfl⟩
  obtain ⟨e2, d2, h2, he2, hm2⟩ : ∃ e2 d2,
      create_version true u2 t2 dp B none d1 = .ok (e2, d2) ∧
      e2 = newEntry u2 t2 dp B none ∧
      (read_manifest d2.manifest).versions = [e2, e1] := by
    refine ⟨_, _, create_version_write u2 t2 dp B none d1 ?_, rfl, ?_⟩
    · intro e0 h
      rw [hm1, List.head?_cons] at h
      cases h
      rw [he1]
      exact hAB
    · show (newEntry u2 t2 dp B none ::
        (read_manifest d1.manifest).versions).take 100 = _
      rw [hm1]
      rfl
  obtain ⟨e3, d3, h3, he3⟩ : ∃ e3 d3,
      create_version true u3 t3 dp A none d2 = .ok (e3, d3) ∧
      e3 = newEntry u3 t3 dp A none := by
    refine ⟨_, _, create_version_write u3 t3 dp A none d2 ?_, rfl⟩
    intro e0 h
    rw [hm2, List.head?_cons] at h
    cases h
    rw [he2]
    exact hAB.symm
  refine ⟨e1, d1, e2, d2, e3, d3, h1, h2, h3, ?_, ?_, ?_⟩
  · rw [he3]; rfl
  · rw [he3, he1]; exact h31
  · rw [he3, he2]; exact h32

/-- C5 amended witness: contents `"a"` and `"b"` (distinct hashes), ids
`"u1"`, `"u2"`, `"u3"`. -/
theorem claim_C5_witness :
    ∃ e1 d1 e2 d2 e3 d3,
      create_version true "u1" "t1" "doc" "a" none ⟨.absent, []⟩ =
        .ok (e1, d1) ∧
      create_version true "u2" "t2" "doc" "b" none d1 = .ok (e2, d2) ∧
      create_version true "u3" "t3" "doc" "a" none d2 = .ok (e3, d3) ∧
      e3.id = "u3" ∧ e3.id ≠ e1.id ∧ e3.id ≠ e2.id :=
  claim_C5_amended_head_only_dedup "doc" "a" "b" "u1" "u2" "u3" "t1" "t2" "t3"
    (by decide) (by decide) (by decide)

/-! ### Claim C7 — operations against the document's own subtree -/

theorem underDir_refl (dir : List String) : underDir dir dir = true :=
  List.isPrefixOf_iff_prefix.2 (List.prefix_refl _)

theorem underDir_append_single (dir : List String) (c : String)
    (h1 : c ≠ "..") (h2 : c ≠ ".") (h3 : c ≠ "") :
    underDir dir (dir ++ [c]) = true := by
  rw [underDir, resolvePath, resolvePath, List.foldl_append, List.foldl_cons,
    List.foldl_nil, resolveComp, if_neg h1, if_neg (by simp [h2, h3])]
  exact List.isPrefixOf_iff_prefix.2 (List.prefix_append _ _)

theorem gz_name_normal (x : String) :
    x ++ ".lml.gz" ≠ ".." ∧ x ++ ".lml.gz" ≠ "." ∧ x ++ ".lml.gz" ≠ "" := by
  have h7 : (".lml.gz" : String).length = 7 := rfl
  have hdd : (".." : String).length = 2 := rfl
  have hd1 : ("." : String).length = 1 := rfl
  have hd0 : ("" : String).length = 0 := rfl
  refine ⟨?_, ?_, ?_⟩ <;>
  · intro h
    have hlen := congrArg String.length h
    rw [String.length_append, h7] at hlen
    omega

theorem underDir_gzPath (dir : List String) (x : String)
    (hx : '/' ∉ x.data) :
    underDir dir (gzPath dir x) = true := by
  have hns : '/' ∉ (x ++ ".lml.gz").data := by
    rw [String.data_append]
    intro hm
    rcases List.mem_append.1 hm with hm | hm
    · exact hx hm
    · have : '/' ∉ (".lml.gz" : String).data := by decide
      exact this hm
  rw [gzPath, pathJoin_single _ _ hns]
  obtain ⟨g1, g2, g3⟩ := gz_name_normal x
  exact underDir_append_single dir _ g1 g2 g3

theorem underDir_manifestPath (dir : List String) :
    underDir dir (manifestPath dir) = true := by
  rw [manifestPath, pathJoin_single _ _ (by decide)]
  exact underDir_append_single dir _ (by decide) (by decide) (by decide)

/-- C7 counterexample: a `version_id` containing `..` path components
escapes the document's resolved subtree — `restore_version` and
`delete_version` interpolate the id into the blob filename unsanitised, so
the claimed isolation fails for ids with separators. -/
theorem claim_C7_counterexample :
    ¬ ∀ (root : List String) (dp vid freshId : String)
        (evictedIds : List String),
      (∀ path ∈ restoreTouches root dp vid,
        underDir (versions_dir root dp) path = true) ∧
      (∀ path ∈ deleteTouches root dp vid,
        underDir (versions_dir root dp) path = true) ∧
      (∀ path ∈ listTouches root dp,
        underDir (versions_dir root dp) path = true) ∧
      (∀ path ∈ createTouches root dp freshId evictedIds,
        underDir (versions_dir root dp) path = true) := by
  intro hclaim
  have h := (hclaim ["home"] "doc" "../../evil" "u" []).1
    (gzPath (versions_dir ["home"] "doc") "../../evil")
    (by simp [restoreTouches])
  have hfalse : underDir (versions_dir ["home"] "doc")
      (gzPath (versions_dir ["home"] "doc") "../../evil") = false := by
    decide
  rw [hfalse] at h
  cases h

/-- C7 amended: when the version id, the fresh id and the evicted ids
contain no path separator, every file path each of the four operations
reads, writes or deletes resolves inside the document's own subtree
`<root>/versions/<fingerprint>`; an id containing separators or `..` can
escape it. -/
theorem claim_C7_amended_subtree (root : List String)
    (dp vid freshId : String) (evictedIds : List String)
    (hv : '/' ∉ vid.data) (hf : '/' ∉ freshId.data)
    (he : ∀ i ∈ evictedIds, '/' ∉ i.data) :
    (∀ path ∈ restoreTouches root dp vid,
      underDir (versions_dir root dp) path = true) ∧
    (∀ path ∈ deleteTouches root dp vid,
      underDir (versions_dir root dp) path = true) ∧
    (∀ path ∈ listTouches root dp,
      underDir (versions_dir root dp) path = true) ∧
    (∀ path ∈ createTouches root dp freshId evictedIds,
      underDir (versions_dir root dp) path = true) := by
  refine ⟨?_, ?_, ?_, ?_⟩
  · intro path hpath
    rw [restoreTouches, List.mem_singleton] at hpath
    rw [hpath]
    exact underDir_gzPath _ _ hv
  · intro path hpath
    rw [deleteTouches] at hpath
    rcases List.mem_cons.1 hpath with h | h
    · rw [h]
      exact underDir_gzPath _ _ hv
    · rw [List.mem_singleton] at h
      rw [h]
      exact underDir_manifestPath _
  · intro path hpath
    rw [listTouches, List.mem_singleton] at hpath
    rw [hpath]
    exact underDir_manifestPath _
  · intro path hpath
    rw [createTouches] at hpath
    rcases List.mem_cons.1 hpath with h | h
    · rw [h]
      exact underDir_refl _
    · rcases List.mem_cons.1 h with h | h
      · rw [h]
        exact underDir_manifestPath _
      · rcases List.mem_cons.1 h with h | h
        · rw [h]
          exact underDir_gzPath _ _ hf
        · obtain ⟨i, hi, rfl⟩ := List.mem_map.1 h
          exact underDir_gzPath _ _ (he i hi)

/-- C7 amended witness: ordinary separator-free ids stay inside the
subtree. -/
theorem claim_C7_witness :
    (∀ path ∈ restoreTouches ["home"] "doc" "v1",
      underDir (versions_dir ["home"] "doc") path = true) ∧
    (∀ path ∈ deleteTouches ["home"] "doc" "v1",
      underDir (versions_dir ["home"] "doc") path = true) ∧
    (∀ path ∈ listTouches ["home"] "doc",
      underDir (versions_dir ["home"] "doc") path = true) ∧
    (∀ path ∈ createTouches ["home"] "doc" "u1" ["e1"],
      underDir (versions_dir ["home"] "doc") path = true) :=
  claim_C7_amended_subtree ["home"] "doc" "v1" "u1" ["e1"]
    (by decide) (by decide)
    (by intro i hi; rw [List.mem_singleton] at hi; rw [hi]; decide)

end Lilia
